import Mathlib

/-!
# Verification of the label-verification engine

A shallow embedding, in Lean 4, of the comparison/verification core of the
label-verification web app: the text normalizer and fuzzy matcher
(`src/lib/textMatching.ts`), the TTB product-type classifier
(`src/lib/productTypeClassifier.ts`), the OCR-path field verifiers
(`src/lib/verification.ts`) and the vision-path field verifiers and
orchestrator (`src/lib/visionExtraction.ts`).

Strings are modelled as Lean `String`s over their character lists; JavaScript
string operations (`toLowerCase`, `trim`, `replace(/\s+/g, ' ')`, character
class tests) are modelled on the ASCII range, which is the range exercised by
the application's data. JavaScript numbers are modelled as rationals `ℚ`;
display strings that interpolate a number are modelled by the number itself,
and error-message templates are modelled by an inductive type carrying the
interpolated values.

The third-party `fuzzball` similarity dependency is not part of the
repository's sources; following the specification it is modelled as a
normalized Levenshtein ratio (see `ratioScore`).
-/

/-- JS whitespace test (`\s`, ASCII range): space, tab, newline, carriage
return, vertical tab, form feed. -/
def jsIsSpace (c : Char) : Bool :=
  decide (c.toNat = 32 ∨ c.toNat = 9 ∨ c.toNat = 10 ∨ c.toNat = 13 ∨
    c.toNat = 11 ∨ c.toNat = 12)

/-- JS word-character test (`\w`): ASCII letters, digits and underscore. -/
def isWordChar (c : Char) : Bool :=
  decide ((65 ≤ c.toNat ∧ c.toNat ≤ 90) ∨ (97 ≤ c.toNat ∧ c.toNat ≤ 122) ∨
    (48 ≤ c.toNat ∧ c.toNat ≤ 57) ∨ c.toNat = 95)

/-- Character class kept by `normalizeText`'s final replacement
(`[^\w\s%.-]` removed): word characters, whitespace, `%`, `.`, `-`. -/
def isKeptChar (c : Char) : Bool :=
  isWordChar c || jsIsSpace c || decide (c.toNat = 37 ∨ c.toNat = 46 ∨ c.toNat = 45)

/-- JS `String.prototype.trim`: drop leading and trailing whitespace. -/
def jsTrim (l : List Char) : List Char :=
  ((l.dropWhile jsIsSpace).reverse.dropWhile jsIsSpace).reverse

/-- JS `replace(/\s+/g, ' ')`: every maximal whitespace run becomes a single
space.  (The single space is emitted at the end of each run, which yields the
same string as emitting it at the start.) -/
def collapseWs : List Char → List Char
  | [] => []
  | [c] => if jsIsSpace c then [' '] else [c]
  | c :: d :: cs =>
    if jsIsSpace c then
      if jsIsSpace d then collapseWs (d :: cs)
      else ' ' :: collapseWs (d :: cs)
    else c :: collapseWs (d :: cs)

/-- The function `normalizeText` from `src/lib/textMatching.ts` on character lists:
lowercase, trim, collapse whitespace runs, strip characters outside
`{alphanumeric, _, whitespace, %, ., -}` — in that order. -/
def normalizeTextL (l : List Char) : List Char :=
  (collapseWs (jsTrim (l.map Char.toLower))).filter isKeptChar

/-- The function `normalizeText` from `src/lib/textMatching.ts`. -/
def normalizeText (s : String) : String :=
  ⟨normalizeTextL s.data⟩

/-- Levenshtein distance.  `levenshteinDistance` in
`src/lib/visionExtraction.ts` fills a DP matrix with
`matrix[i][j] = if eq then diag else 1 + min(diag, left, up)`; this function
computes the same recurrence top-down, with a fuel argument (always at least
the total length, so it never runs out) to make the recursion structural. -/
def levDistF : ℕ → List Char → List Char → ℕ
  | _, [], ys => ys.length
  | _, x :: xs, [] => (x :: xs).length
  | 0, _, _ => 0
  | f + 1, x :: xs, y :: ys =>
    if x = y then levDistF f xs ys
    else 1 + min (levDistF f xs ys) (min (levDistF f xs (y :: ys)) (levDistF f (x :: xs) ys))

/-- Levenshtein distance between two character lists. -/
def levDist (xs ys : List Char) : ℕ :=
  levDistF (xs.length + ys.length) xs ys

/-- Modelled from the spec: the similarity scorer is the third-party
`fuzzball.ratio` dependency, whose source is not part of this repository.
Spec §4.2: an integer 0–100 computed as a normalized edit-distance ratio,
`score = 100 × (1 − distance / max(len(a), len(b)))`, with 100 meaning
normalized-equal. -/
def ratioScore (a b : List Char) : ℚ :=
  ((round ((100 : ℚ) * (1 - (levDist a b : ℚ) / (max a.length b.length : ℚ))) : ℤ) : ℚ)

/-- The function `fuzzyMatch` from `src/lib/textMatching.ts`: normalize both inputs with
`normalizeText`, then score them with the ratio scorer. -/
def fuzzyMatch (str1 str2 : String) : ℚ :=
  ratioScore (normalizeText str1).data (normalizeText str2).data

/-- The module-level fuzzy-match threshold (`FUZZY_MATCH_THRESHOLD = 80`). -/
def FUZZY_MATCH_THRESHOLD : ℚ := 80

/-- JS `String.prototype.split` on a character-class-run separator regex
(such as `/\s+/` or `/[\s\-\/]+/`): maximal runs of separator characters
split the string, with an empty segment before a leading run and after a
trailing run, and `[""]` for the empty string. -/
def splitOnP (p : Char → Bool) : List Char → List Char → List (List Char)
  | [], acc => [acc.reverse]
  | [c], acc => if p c then [acc.reverse, []] else [(c :: acc).reverse]
  | c :: d :: cs, acc =>
    if p c then
      if p d then splitOnP p (d :: cs) acc
      else acc.reverse :: splitOnP p (d :: cs) []
    else splitOnP p (d :: cs) (c :: acc)

/-- The window list iterated by `findBestMatch` (`src/lib/textMatching.ts`):
window sizes 1 up to `min 10 words.length` in ascending order and, for each
size, start indices in ascending order; each window is its words joined with
a single space. -/
def windowsOf (ws : List (List Char)) : List (List Char) :=
  (List.range' 1 (min 10 ws.length)).flatMap
    (fun w => (List.range (ws.length - w + 1)).map
      (fun i => List.intercalate [' '] ((ws.drop i).take w)))

/-- The accumulator update shared by `findBestMatch` and
`classifyProductType`: keep the current best, replacing it only when the new
candidate qualifies (`f` returns `some`) and its score is strictly greater —
so on ties the first-encountered candidate wins. -/
def scanBest {α β γ : Type} [LinearOrder γ] (f : α → Option (β × γ)) :
    Option (β × γ) → List α → Option (β × γ)
  | acc, [] => acc
  | acc, x :: xs =>
    scanBest f
      (match f x, acc with
        | none, a => a
        | some (b, s), none => some (b, s)
        | some (b, s), some (b0, s0) => if s0 < s then some (b, s) else some (b0, s0)) xs

/-- The score `findBestMatch` assigns to a window: `fuzzyMatch` between the
(pre-normalized) search term and the window text. -/
def windowScore (searchTerm : String) (w : List Char) : ℚ :=
  fuzzyMatch (normalizeText searchTerm) ⟨w⟩

/-- The window list of `findBestMatch` (`src/lib/textMatching.ts`): split the OCR text on
whitespace, slide windows of 1–10 words over it, and keep the best-scoring
window at or above the threshold (strict improvement only, so first
encountered wins ties). -/
def textWindows (ocrText : String) : List (List Char) :=
  windowsOf (splitOnP jsIsSpace ocrText.data [])

/-- The function `findBestMatch` continued: scan the window list, keeping the best
qualifying window. -/
def findBestMatch (searchTerm ocrText : String) (threshold : ℚ) : Option (String × ℚ) :=
  scanBest
    (fun w => if threshold ≤ windowScore searchTerm w
      then some ((⟨w⟩ : String), windowScore searchTerm w) else none)
    none (textWindows ocrText)

/-- Case-insensitive literal-prefix test (for the `/i` regex flag). -/
def lowPrefixOf (pat : String) (l : List Char) : Bool :=
  (l.take pat.length).map Char.toLower == pat.data

/-- Match the regex fragment `alc\.?\/vol\.?` at the start of `l`,
returning how many characters it consumes. -/
def matchAlcVol (l : List Char) : Option ℕ :=
  if lowPrefixOf "alc" l then
    let slashEnd : Option ℕ :=
      match l.drop 3 with
      | '.' :: '/' :: _ => some 5
      | '/' :: _ => some 4
      | _ => none
    match slashEnd with
    | none => none
    | some n =>
      if lowPrefixOf "vol" (l.drop n) then
        match l.drop (n + 3) with
        | '.' :: _ => some (n + 4)
        | _ => some (n + 3)
      else none
  else none

/-- Match the keyword alternation `(ABV|alc\.?\/vol\.?|alcohol)` (flag `i`)
at the start of `l`, trying the alternatives in order; returns the matched
slice and the rest. -/
def matchAlcKw (l : List Char) : Option (List Char × List Char) :=
  if lowPrefixOf "abv" l then some (l.take 3, l.drop 3)
  else
    match matchAlcVol l with
    | some n => some (l.take n, l.drop n)
    | none =>
      if lowPrefixOf "alcohol" l then some (l.take 7, l.drop 7) else none

/-- Greedy match of the regex fragment `\d+\.?\d*` (assuming `l` starts
with a digit): the matched number text and the rest. -/
def takeNumber (l : List Char) : List Char × List Char :=
  let ds := l.takeWhile Char.isDigit
  let rest := l.dropWhile Char.isDigit
  match rest with
  | '.' :: r2 => (ds ++ '.' :: r2.takeWhile Char.isDigit, r2.dropWhile Char.isDigit)
  | _ => (ds, rest)

/-- The number captures of `matchAll` with the first `findAlcoholContent`
pattern `/(\d+\.?\d*)\s*%\s*(ABV|alc\.?\/vol\.?|alcohol)?/gi`: attempt a
match at each position, resume after each successful match, advance one
character after a failed attempt.  Fuel (initially the text length, which
the recursion never exhausts) keeps the recursion structural. -/
def scanPat1 : ℕ → List Char → List String
  | _, [] => []
  | 0, _ => []
  | f + 1, c :: cs =>
    if c.isDigit then
      let nr := takeNumber (c :: cs)
      match nr.2.dropWhile jsIsSpace with
      | '%' :: r2 =>
        let r3 := r2.dropWhile jsIsSpace
        (⟨nr.1⟩ : String) ::
          (match matchAlcKw r3 with
            | some kr => scanPat1 f kr.2
            | none => scanPat1 f r3)
      | _ => scanPat1 f cs
    else scanPat1 f cs

/-- One match attempt of the second `findAlcoholContent` pattern
`/(ABV|alc\.?\/vol\.?|alcohol)?\s*(\d+\.?\d*)\s*%/gi`; the capture is
`match[1] || match[2]`: the keyword when it participated, the number text
otherwise. -/
def attempt2 (l : List Char) : Option (String × List Char) :=
  let kw := matchAlcKw l
  let r1 := match kw with | some kr => kr.2 | none => l
  let r2 := r1.dropWhile jsIsSpace
  match r2 with
  | c :: _ =>
    if c.isDigit then
      let nr := takeNumber r2
      match nr.1, nr.2.dropWhile jsIsSpace with
      | num, '%' :: r5 =>
        some ((match kw with
          | some kr => (⟨kr.1⟩ : String)
          | none => (⟨num⟩ : String)), r5)
      | _, _ => none
    else none
  | [] => none

/-- All captures of the second `findAlcoholContent` pattern, scanning as the
JS regex engine does (resume after a match, advance one on failure). -/
def scanPat2 : ℕ → List Char → List String
  | _, [] => []
  | 0, _ => []
  | f + 1, c :: cs =>
    match attempt2 (c :: cs) with
    | some cr => cr.1 :: scanPat2 f cr.2
    | none => scanPat2 f cs

/-- Decimal digits to a natural number. -/
def digitsToNat (l : List Char) : ℕ :=
  l.foldl (fun a c => a * 10 + (c.toNat - 48)) 0

/-- JS `parseFloat` restricted to the capture strings that can reach it in
`findAlcoholContent`: a string starting with digits parses as a decimal
number (`"2."` parses as `2`), anything else — such as a captured keyword —
is `NaN`, modelled as `none`. -/
def parseFloatQ (s : String) : Option ℚ :=
  let ds := s.data.takeWhile Char.isDigit
  if ds.isEmpty then none
  else
    match s.data.dropWhile Char.isDigit with
    | '.' :: r2 =>
      let fs := r2.takeWhile Char.isDigit
      some ((digitsToNat ds : ℚ) + (digitsToNat fs : ℚ) / ((10 : ℚ) ^ fs.length))
    | _ => some ((digitsToNat ds : ℚ))

/-- JS `[...new Set(xs)]`: drop every element already seen, keeping first
occurrences. -/
def firstDedupGo (seen : List ℚ) : List ℚ → List ℚ
  | [] => []
  | x :: xs => if x ∈ seen then firstDedupGo seen xs else x :: firstDedupGo (x :: seen) xs

/-- JS `[...new Set(xs)]` on a rational list. -/
def firstDedup (l : List ℚ) : List ℚ :=
  firstDedupGo [] l

/-- The function `findAlcoholContent` from `src/lib/textMatching.ts`: collect the captures
of both percentage patterns, parse each with `parseFloat`, keep values in
`[0, 100]`, and de-duplicate. -/
def findAlcoholContent (text : String) : List ℚ :=
  firstDedup
    ((scanPat1 text.data.length text.data ++ scanPat2 text.data.length text.data).filterMap
      (fun s =>
        match parseFloatQ s with
        | some p => if 0 ≤ p ∧ p ≤ 100 then some p else none
        | none => none))

/-- First index at which `needle` occurs in the remaining list (JS
`String.indexOf` / the existence test `String.includes`), with `i` the index
of the current position. -/
def firstIdxGo (needle : List Char) : List Char → ℕ → Option ℕ
  | [], i => if needle.isEmpty then some i else none
  | c :: t, i => if needle.isPrefixOf (c :: t) then some i else firstIdxGo needle t (i + 1)

/-- JS `hay.includes(needle)`. -/
def includesSub (needle hay : List Char) : Bool :=
  (firstIdxGo needle hay 0).isSome

/-- The test `/\s/.test(hay[i])` (out-of-range access is `undefined`, which tests
false; the source only evaluates it in range thanks to short-circuiting). -/
def isSpaceAt (hay : List Char) (i : ℕ) : Bool :=
  match hay.get? i with
  | some c => jsIsSpace c
  | none => false

/-- The three TTB categories (`src/lib/productTypeClassifier.ts`). -/
inductive TTBCategory where
  | wine
  | distilledSpirits
  | maltBeverage
deriving DecidableEq

/-- Keyword list for the `Wine` category. -/
def wineKeywords : List String :=
  ["wine", "cabernet", "merlot", "chardonnay", "pinot", "sauvignon",
   "riesling", "zinfandel", "syrah", "shiraz", "malbec", "tempranillo",
   "sangiovese", "nebbiolo", "grenache", "viognier", "moscato", "gewurztraminer",
   "red wine", "white wine", "ros\u00e9", "rose", "blush", "table wine",
   "champagne", "prosecco", "cava", "sparkling wine", "sparkling",
   "port", "sherry", "vermouth", "madeira", "marsala",
   "sake", "rice wine", "mead", "honey wine",
   "dessert wine", "ice wine", "fortified wine"]

/-- Keyword list for the `Distilled Spirits` category. -/
def distilledKeywords : List String :=
  ["whiskey", "whisky", "bourbon", "scotch", "rye", "tennessee whiskey",
   "irish whiskey", "canadian whisky", "single malt", "blended whiskey",
   "vodka", "gin", "rum", "tequila", "mezcal",
   "brandy", "cognac", "armagnac", "grappa", "pisco",
   "liqueur", "cordial", "schnapps", "absinthe",
   "spirit", "spirits", "distilled", "distilled spirits",
   "moonshine", "everclear", "grain alcohol",
   "ouzo", "arak", "raki", "baijiu", "soju", "shochu",
   "aquavit", "genever", "cachaca"]

/-- Keyword list for the `Malt Beverage` category. -/
def maltKeywords : List String :=
  ["beer", "ale", "lager", "pilsner", "pilsen",
   "ipa", "india pale ale", "pale ale", "amber ale", "brown ale",
   "stout", "porter", "wheat beer", "hefeweizen", "witbier",
   "sour", "gose", "saison", "farmhouse ale", "belgian ale",
   "kolsch", "bock", "doppelbock", "dunkel", "marzen", "oktoberfest",
   "lambic", "gueuze", "kriek", "barleywine", "barley wine",
   "dubbel", "tripel", "quad", "quadrupel",
   "malt beverage", "malt liquor", "hard seltzer", "seltzer",
   "cider", "hard cider", "perry", "pear cider",
   "flavored malt beverage", "fmb", "alcopop"]

/-- The entries `Object.entries(categoryKeywords)` in insertion order. -/
def categoryEntries : List (TTBCategory × List String) :=
  [(.wine, wineKeywords), (.distilledSpirits, distilledKeywords),
   (.maltBeverage, maltKeywords)]

/-- The confidence `classifyProductType` assigns to a keyword hit: base 60
plus up to 30 for keyword length, +10 on a word-boundary match, +5 when the
hit starts before index 10, capped at 95. -/
def keywordConfidence (kw hay : List Char) : ℕ :=
  match firstIdxGo kw hay 0 with
  | none => 0
  | some pos =>
    let kl := kw.length
    let boundary := (pos == 0 || isSpaceAt hay (pos - 1)) &&
      (pos + kl == hay.length || isSpaceAt hay (pos + kl))
    let base := 60 + min (kl * 2) 30
    let c1 := if boundary then base + 10 else base
    let c2 := if pos < 10 then c1 + 5 else c1
    min c2 95

/-- Result record of `classifyProductType`. -/
structure ClassifyResult where
  category : Option TTBCategory
  confidence : ℕ
  matchedKeyword : Option String
deriving DecidableEq

/-- Every (category, keyword) pair, in the nested iteration order of
`classifyProductType` (categories in insertion order, keywords in list
order). -/
def keywordPairs : List (TTBCategory × String) :=
  categoryEntries.flatMap (fun e => e.2.map (fun k => (e.1, k)))

/-- The classifier's input normalization: `productText.toLowerCase().trim()`. -/
def classifierNorm (productText : String) : List Char :=
  jsTrim (productText.data.map Char.toLower)

/-- The function `classifyProductType` from `src/lib/productTypeClassifier.ts`: lowercase
and trim the text; over every (category, keyword) pair in table order, keep
the hit with the strictly highest confidence; `{null, 0}` when the text is
empty/blank or no keyword occurs. -/
def classifyProductType (productText : String) : ClassifyResult :=
  let normalized := classifierNorm productText
  if normalized.isEmpty then ⟨none, 0, none⟩
  else
    match scanBest (fun (ck : TTBCategory × String) =>
        if includesSub ck.2.data normalized
        then some ((ck.1, ck.2), keywordConfidence ck.2.data normalized)
        else none) none keywordPairs with
    | some bs => ⟨some bs.1.1, bs.2, some bs.1.2⟩
    | none => ⟨none, 0, none⟩

/-- The error-message templates of the field verifiers, each carrying the
values the source interpolates into the message text. -/
inductive ErrMsg where
  | brandNotFound
  | brandMismatch (expected found : String)
  | fieldNotFound (fieldName : String)
  | fieldMismatch (fieldName expected found : String)
  | alcoholNotFound (expected : ℚ)
  | alcoholMismatch (expected found : ℚ)
  | netNotFound
  | netMismatch (expected found : String)
  | warningMissing
deriving DecidableEq

/-- A `FieldResult` whose expected/found displays are strings. -/
structure StrFieldResult where
  matched : Bool
  expected : String
  found : Option String
  similarity : Option ℚ
  error : Option ErrMsg
deriving DecidableEq

/-- A `FieldResult` whose expected/found displays render numbers (the source
stores `"45%"`; the model keeps the number). -/
structure NumFieldResult where
  matched : Bool
  expected : ℚ
  found : Option ℚ
  similarity : Option ℚ
  error : Option ErrMsg
deriving DecidableEq

/-- The normalization used by the vision-path text verifiers
(`src/lib/visionExtraction.ts`): lowercase, trim, collapse whitespace runs —
unlike `normalizeText`, nothing is stripped. -/
def normSpace (s : String) : String :=
  ⟨collapseWs (jsTrim (s.data.map Char.toLower))⟩

/-- Vision-path `verifyBrandName` (`src/lib/visionExtraction.ts`): exact
match after `normSpace`; a null or empty extracted brand (`!found`) is "not
found". -/
def verifyBrandName (expected : String) (found : Option String) : StrFieldResult :=
  match found with
  | none => ⟨false, expected, none, none, some .brandNotFound⟩
  | some f =>
    if f = "" then ⟨false, expected, none, none, some .brandNotFound⟩
    else if normSpace expected = normSpace f then
      ⟨true, expected, some f, some 100, none⟩
    else ⟨false, expected, some f, none, some (.brandMismatch expected f)⟩

/-- Separator class of the word split in `verifyField`. -/
def wordSplitChar (c : Char) : Bool :=
  jsIsSpace c || c == '-' || c == '/'

/-- Vision-path `verifyField` (used for the product type): exact match after
`normSpace`, else all expected words present in the found words (similarity
95), else all found words present in the expected words (similarity 90),
else mismatch. -/
def verifyField (fieldName expected : String) (found : Option String) : StrFieldResult :=
  match found with
  | none => ⟨false, expected, none, none, some (.fieldNotFound fieldName)⟩
  | some f =>
    if f = "" then ⟨false, expected, none, none, some (.fieldNotFound fieldName)⟩
    else
      let nE := normSpace expected
      let nF := normSpace f
      if nE = nF then ⟨true, expected, some f, some 100, none⟩
      else
        let expectedWords := (splitOnP wordSplitChar nE.data []).filter (fun w => !w.isEmpty)
        let foundWords := (splitOnP wordSplitChar nF.data []).filter (fun w => !w.isEmpty)
        let allWordsPresent := expectedWords.all (fun ew =>
          foundWords.any (fun fw => fw == ew || (includesSub ew fw && decide (2 < ew.length))))
        if allWordsPresent then ⟨true, expected, some f, some 95, none⟩
        else
          let allFoundWords := foundWords.all (fun fw =>
            expectedWords.any (fun ew => ew == fw || (includesSub fw ew && decide (2 < fw.length))))
          if allFoundWords && !foundWords.isEmpty then ⟨true, expected, some f, some 90, none⟩
          else ⟨false, expected, some f, none, some (.fieldMismatch fieldName expected f)⟩

/-- Vision-path `verifyAlcoholField`: strict null check, then absolute
tolerance 0.5 percentage points. -/
def verifyAlcoholField (expected : ℚ) (found : Option ℚ) : NumFieldResult :=
  match found with
  | none => ⟨false, expected, none, none, some (.alcoholNotFound expected)⟩
  | some f =>
    if |expected - f| ≤ 1/2 then ⟨true, expected, some f, some 100, none⟩
    else ⟨false, expected, some f, none, some (.alcoholMismatch expected f)⟩

/-- A single regex-replacement pass over the text: where `step` matches (and
consumes at least one character), emit its replacement and continue after the
match; otherwise keep the character and move on.  Fuel (initially the text
length, never exhausted) keeps the recursion structural. -/
def scanRepl (step : List Char → Option (List Char × List Char)) : ℕ → List Char → List Char
  | _, [] => []
  | 0, l => l
  | f + 1, c :: cs =>
    match step (c :: cs) with
    | some or => or.1 ++ scanRepl step f or.2
    | none => c :: scanRepl step f cs

/-- One match of the quantity-unit join (digits, optional spaces, then one of
the units `ml`, `l`, `oz`, `gal`, tried in alternation order), replaced by
digits and unit with the space dropped. -/
def stepDigitUnit (l : List Char) : Option (List Char × List Char) :=
  match l with
  | [] => none
  | c :: _ =>
    if c.isDigit then
      let ds := l.takeWhile Char.isDigit
      let rest := (l.dropWhile Char.isDigit).dropWhile jsIsSpace
      if lowPrefixOf "ml" rest then some (ds ++ rest.take 2, rest.drop 2)
      else if lowPrefixOf "l" rest then some (ds ++ rest.take 1, rest.drop 1)
      else if lowPrefixOf "oz" rest then some (ds ++ rest.take 2, rest.drop 2)
      else if lowPrefixOf "gal" rest then some (ds ++ rest.take 3, rest.drop 3)
      else none
    else none

/-- One match of a case-insensitive word pattern: the literal stem with an
optional trailing `s`, replaced by `rep`. -/
def stepWord (pat : String) (rep : String) (l : List Char) : Option (List Char × List Char) :=
  if lowPrefixOf pat l then
    let n := pat.length
    let n2 := if lowPrefixOf "s" (l.drop n) then n + 1 else n
    some (rep.data, l.drop n2)
  else none

/-- One match of the liter-word alternation (`liter` before `litre`, each
with optional `s`), replaced by `l`. -/
def stepLiter (l : List Char) : Option (List Char × List Char) :=
  match stepWord "liter" "l" l with
  | some r => some r
  | none => stepWord "litre" "l" l

/-- One match of the fluid-ounce pattern (`fl`, optional dot, optional
spaces, `oz`), replaced by `floz`. -/
def stepFlOz (l : List Char) : Option (List Char × List Char) :=
  if lowPrefixOf "fl" l then
    let r1 := l.drop 2
    let r2 := match r1 with | '.' :: t => t | _ => r1
    let r3 := r2.dropWhile jsIsSpace
    if lowPrefixOf "oz" r3 then some ("floz".data, r3.drop 2) else none
  else none

/-- The local `normalizeVolume` of `verifyNetContentsField`
(`src/lib/visionExtraction.ts`): lowercase, trim, collapse spaces, join
quantity and unit, canonicalize unit words, strip all remaining spaces. -/
def normalizeVolume (s : String) : String :=
  let l0 := collapseWs (jsTrim (s.data.map Char.toLower))
  let l1 := scanRepl stepDigitUnit l0.length l0
  let l2 := scanRepl (stepWord "milliliter" "ml") l1.length l1
  let l3 := scanRepl stepLiter l2.length l2
  let l4 := scanRepl stepFlOz l3.length l3
  let l5 := scanRepl (stepWord "ounce" "oz") l4.length l4
  ⟨l5.filter (fun c => !jsIsSpace c)⟩

/-- Vision-path `verifyNetContentsField`: exact equality of
`normalizeVolume`d strings, else match when the Levenshtein similarity
`(1 - dist / max(len, len)) * 100` is at least 80. -/
def verifyNetContentsField (expected : String) (found : Option String) : StrFieldResult :=
  match found with
  | none => ⟨false, expected, none, none, some .netNotFound⟩
  | some f =>
    if f = "" then ⟨false, expected, none, none, some .netNotFound⟩
    else
      let nE := normalizeVolume expected
      let nF := normalizeVolume f
      if nE = nF then ⟨true, expected, some f, some 100, none⟩
      else
        let sim : ℚ :=
          (1 - (levDist nE.data nF.data : ℚ) / (max nE.length nF.length : ℚ)) * 100
        if 80 ≤ sim then ⟨true, expected, some f, some ((round sim : ℤ) : ℚ), none⟩
        else ⟨false, expected, some f, none, some (.netMismatch expected f)⟩

/-- Vision-path `verifyWarningField`: pure presence check. -/
def verifyWarningField (hasWarning : Bool) : StrFieldResult :=
  if hasWarning then
    ⟨true, "GOVERNMENT WARNING present", some "GOVERNMENT WARNING found", some 100, none⟩
  else
    ⟨false, "GOVERNMENT WARNING present", none, none, some .warningMissing⟩

/-- The user-declared record (`FormData` in `src/types/index.ts`). -/
structure FormData where
  brandName : String
  productType : String
  alcoholContent : ℚ
  netContents : String
deriving DecidableEq

/-- The record returned by `extractLabelDataWithVision`: each field either a
typed value or `null`; the warning flag defaults to false. -/
structure ExtractedData where
  brandName : Option String
  productType : Option String
  alcoholContent : Option ℚ
  netContents : Option String
  hasGovernmentWarning : Bool
deriving DecidableEq

/-- The five per-field results of the vision path. -/
structure VisionFields where
  brandName : StrFieldResult
  productType : StrFieldResult
  alcoholContent : NumFieldResult
  netContents : StrFieldResult
  governmentWarning : StrFieldResult
deriving DecidableEq

/-- The record `VerificationResult`: overall success plus the field map. -/
structure VerificationResultV where
  success : Bool
  fields : VisionFields
deriving DecidableEq

/-- The orchestrator `verifyLabelWithVision` (`src/lib/visionExtraction.ts`), after the
extraction call: run the five field verifiers, then take `success` to be the
conjunction of ALL five fields' `matched` flags, `governmentWarning`
included; the function has no insufficient-data abort path. -/
def verifyLabelWithVision (formData : FormData) (extractedData : ExtractedData) :
    VerificationResultV :=
  let fields : VisionFields :=
    ⟨verifyBrandName formData.brandName extractedData.brandName,
     verifyField "Product type" formData.productType extractedData.productType,
     verifyAlcoholField formData.alcoholContent extractedData.alcoholContent,
     verifyNetContentsField formData.netContents extractedData.netContents,
     verifyWarningField extractedData.hasGovernmentWarning⟩
  ⟨fields.brandName.matched && fields.productType.matched &&
     fields.alcoholContent.matched && fields.netContents.matched &&
     fields.governmentWarning.matched, fields⟩

/-- OCR-path `verifyAlcoholContent` (`src/lib/verification.ts`): scan the
OCR text for percentages and take the first within tolerance 0.5; otherwise
fail, reporting the first found percentage if any. -/
def verifyAlcoholContent (formValue : ℚ) (ocrText : String) : NumFieldResult :=
  let foundPercentages := findAlcoholContent ocrText
  match foundPercentages.find? (fun p => decide (|p - formValue| ≤ 1/2)) with
  | some p => ⟨true, formValue, some p, some 100, none⟩
  | none =>
    ⟨false, formValue, foundPercentages.head?, none,
      some (match foundPercentages.head? with
        | some p0 => .alcoholMismatch formValue p0
        | none => .alcoholNotFound formValue)⟩

/-- The abort-condition count of spec §3/§4.5: how many of the three
critical fields {brandName, productDescription (the extracted product type
text), alcoholContent} are absent in the raw extracted record. -/
def absentCriticalCount (e : ExtractedData) : ℕ :=
  (if e.brandName = none then 1 else 0) + (if e.productType = none then 1 else 0) +
    (if e.alcoholContent = none then 1 else 0)

/-- A sample declared record used by the concrete evaluations. -/
def sampleForm : FormData :=
  ⟨"Old Tom", "Bourbon", 45, "750 ML"⟩

/-- An extracted record agreeing with `sampleForm` on all four required
fields but with no government warning. -/
def extractedNoWarning : ExtractedData :=
  ⟨some "Old Tom", some "Bourbon", some 45, some "750 ML", false⟩

/-- An extracted record with all three critical fields null (unreadable
image), but a readable volume. -/
def extractedSparse : ExtractedData :=
  ⟨none, none, none, some "750 ML", false⟩

theorem toNat_ofNat_le (m : Nat) (h : m ≤ 122) : (Char.ofNat m).toNat = m := by
  have hv : m.isValidChar := Or.inl (by omega)
  simp [Char.ofNat, hv, Char.ofNatAux, Char.toNat, UInt32.toNat]

theorem toLower_eq_self (c : Char) (h : ¬(65 ≤ c.toNat ∧ c.toNat ≤ 90)) :
    c.toLower = c := by
  simp only [Char.toLower]
  rw [if_neg]
  omega

theorem toNat_toLower_of_upper (c : Char) (h : 65 ≤ c.toNat ∧ c.toNat ≤ 90) :
    c.toLower.toNat = c.toNat + 32 := by
  simp only [Char.toLower]
  rw [if_pos (by omega)]
  exact toNat_ofNat_le _ (by omega)

theorem toLower_toLower (c : Char) : c.toLower.toLower = c.toLower := by
  by_cases h : 65 ≤ c.toNat ∧ c.toNat ≤ 90
  · have h2 := toNat_toLower_of_upper c h
    exact toLower_eq_self _ (by omega)
  · rw [toLower_eq_self c h, toLower_eq_self c h]

/-! ## Helper lemmas: whitespace collapse, trimming, normalization -/

theorem mem_dropWhileP {p : Char → Bool} {c : Char} :
    ∀ {l : List Char}, c ∈ l.dropWhile p → c ∈ l := by
  intro l
  induction l with
  | nil => simp [List.dropWhile]
  | cons a t ih =>
    intro h
    rw [List.dropWhile_cons] at h
    by_cases hp : p a
    · simp only [if_pos hp] at h
      exact List.mem_cons_of_mem a (ih h)
    · simp only [if_neg hp] at h
      exact h

theorem dropWhile_head_false {p : Char → Bool} :
    ∀ (l : List Char) (c : Char), (l.dropWhile p).head? = some c → p c = false := by
  intro l
  induction l with
  | nil => simp [List.dropWhile]
  | cons a t ih =>
    intro c h
    rw [List.dropWhile_cons] at h
    by_cases hp : p a
    · simp only [if_pos hp] at h
      exact ih c h
    · simp only [if_neg hp, List.head?_cons, Option.some.injEq] at h
      subst h
      exact Bool.eq_false_iff.mpr hp

theorem dropWhile_eq_self_of_head {p : Char → Bool} (l : List Char)
    (h : ∀ c, l.head? = some c → p c = false) : l.dropWhile p = l := by
  cases l with
  | nil => rfl
  | cons a t =>
    rw [List.dropWhile_cons, if_neg]
    simp [h a rfl]

theorem exists_prefix_dropWhile {p : Char → Bool} :
    ∀ (l : List Char), ∃ t, t ++ l.dropWhile p = l := by
  intro l
  induction l with
  | nil => exact ⟨[], rfl⟩
  | cons a t ih =>
    rw [List.dropWhile_cons]
    by_cases hp : p a
    · obtain ⟨u, hu⟩ := ih
      exact ⟨a :: u, by simp [if_pos hp, hu]⟩
    · exact ⟨[], by simp [if_neg hp]⟩

theorem mem_collapseWs {c : Char} :
    ∀ {l : List Char}, c ∈ collapseWs l → c = ' ' ∨ (c ∈ l ∧ jsIsSpace c = false) := by
  intro l
  induction l using collapseWs.induct with
  | case1 => simp [collapseWs]
  | case2 a ha =>
    intro h
    rw [collapseWs, if_pos ha] at h
    exact Or.inl (List.mem_singleton.mp h)
  | case3 a ha =>
    intro h
    rw [collapseWs, if_neg ha] at h
    rw [List.mem_singleton.mp h]
    exact Or.inr ⟨List.mem_singleton_self a, Bool.eq_false_iff.mpr ha⟩
  | case4 a d cs ha hd ih =>
    intro h
    rw [collapseWs, if_pos ha, if_pos hd] at h
    rcases ih h with h1 | ⟨h2, h3⟩
    · exact Or.inl h1
    · exact Or.inr ⟨List.mem_cons_of_mem a h2, h3⟩
  | case5 a d cs ha hd ih =>
    intro h
    rw [collapseWs, if_pos ha, if_neg hd] at h
    rcases List.mem_cons.mp h with h1 | h1
    · exact Or.inl h1
    · rcases ih h1 with h2 | ⟨h3, h4⟩
      · exact Or.inl h2
      · exact Or.inr ⟨List.mem_cons_of_mem a h3, h4⟩
  | case6 a d cs ha ih =>
    intro h
    rw [collapseWs, if_neg ha] at h
    rcases List.mem_cons.mp h with h1 | h1
    · subst h1
      exact Or.inr ⟨List.mem_cons_self c _, Bool.eq_false_iff.mpr ha⟩
    · rcases ih h1 with h2 | ⟨h3, h4⟩
      · exact Or.inl h2
      · exact Or.inr ⟨List.mem_cons_of_mem a h3, h4⟩

theorem collapseWs_ne_nil : ∀ {l : List Char}, l ≠ [] → collapseWs l ≠ [] := by
  intro l
  induction l using collapseWs.induct with
  | case1 => intro h; exact absurd rfl h
  | case2 a ha => intro _; rw [collapseWs, if_pos ha]; simp
  | case3 a ha => intro _; rw [collapseWs, if_neg ha]; simp
  | case4 a d cs ha hd ih =>
    intro _
    rw [collapseWs, if_pos ha, if_pos hd]
    exact ih (by simp)
  | case5 a d cs ha hd ih => intro _; rw [collapseWs, if_pos ha, if_neg hd]; simp
  | case6 a d cs ha ih => intro _; rw [collapseWs, if_neg ha]; simp

theorem getLast?_cons_ne {a : Char} {X : List Char} (h : X ≠ []) :
    (a :: X).getLast? = X.getLast? := by
  cases X with
  | nil => exact absurd rfl h
  | cons b t => exact List.getLast?_cons_cons

theorem head?_collapseWs :
    ∀ {l : List Char}, (∀ x, l.head? = some x → jsIsSpace x = false) →
      (collapseWs l).head? = l.head? := by
  intro l
  induction l using collapseWs.induct with
  | case1 => intro _; rfl
  | case2 a ha => intro hl; simp [hl a rfl] at ha
  | case3 a ha => intro _; rw [collapseWs, if_neg ha]
  | case4 a d cs ha hd ih => intro hl; simp [hl a rfl] at ha
  | case5 a d cs ha hd ih => intro hl; simp [hl a rfl] at ha
  | case6 a d cs ha ih => intro _; rw [collapseWs, if_neg ha]; rfl

theorem getLast?_collapseWs :
    ∀ {l : List Char}, (∀ x, l.getLast? = some x → jsIsSpace x = false) →
      ∀ x, (collapseWs l).getLast? = some x → jsIsSpace x = false := by
  intro l
  induction l using collapseWs.induct with
  | case1 => intro _ x hx; simp [collapseWs] at hx
  | case2 a ha =>
    intro hl x hx
    have := hl a (by simp)
    simp [this] at ha
  | case3 a ha =>
    intro hl x hx
    rw [collapseWs, if_neg ha] at hx
    simp only [List.getLast?_singleton, Option.some.injEq] at hx
    subst hx
    exact Bool.eq_false_iff.mpr ha
  | case4 a d cs ha hd ih =>
    intro hl x hx
    rw [collapseWs, if_pos ha, if_pos hd] at hx
    refine ih (fun y hy => hl y ?_) x hx
    rw [List.getLast?_cons_cons]
    exact hy
  | case5 a d cs ha hd ih =>
    intro hl x hx
    rw [collapseWs, if_pos ha, if_neg hd,
      getLast?_cons_ne (collapseWs_ne_nil (by simp))] at hx
    refine ih (fun y hy => hl y ?_) x hx
    rw [List.getLast?_cons_cons]
    exact hy
  | case6 a d cs ha ih =>
    intro hl x hx
    rw [collapseWs, if_neg ha,
      getLast?_cons_ne (collapseWs_ne_nil (by simp))] at hx
    refine ih (fun y hy => hl y ?_) x hx
    rw [List.getLast?_cons_cons]
    exact hy

theorem chain'_collapseWs :
    ∀ {l : List Char},
      List.Chain' (fun x y => jsIsSpace x = false ∨ jsIsSpace y = false) (collapseWs l) := by
  intro l
  induction l using collapseWs.induct with
  | case1 => simp [collapseWs]
  | case2 a ha => rw [collapseWs, if_pos ha]; simp
  | case3 a ha => rw [collapseWs, if_neg ha]; simp
  | case4 a d cs ha hd ih => rw [collapseWs, if_pos ha, if_pos hd]; exact ih
  | case5 a d cs ha hd ih =>
    rw [collapseWs, if_pos ha, if_neg hd]
    refine List.chain'_cons'.mpr ⟨?_, ih⟩
    intro y hy
    rw [head?_collapseWs (by intro x hx; simp at hx; subst hx; exact Bool.eq_false_iff.mpr hd)] at hy
    simp at hy
    subst hy
    exact Or.inr (Bool.eq_false_iff.mpr hd)
  | case6 a d cs ha ih =>
    rw [collapseWs, if_neg ha]
    refine List.chain'_cons'.mpr ⟨?_, ih⟩
    intro y _
    exact Or.inl (Bool.eq_false_iff.mpr ha)

theorem collapseWs_eq_self :
    ∀ {l : List Char},
      List.Chain' (fun x y => jsIsSpace x = false ∨ jsIsSpace y = false) l →
      (∀ c ∈ l, jsIsSpace c = true → c = ' ') → collapseWs l = l := by
  intro l
  induction l using collapseWs.induct with
  | case1 => intro _ _; rfl
  | case2 a ha =>
    intro _ h2
    rw [collapseWs, if_pos ha, h2 a (List.mem_singleton_self a) ha]
  | case3 a ha => intro _ _; rw [collapseWs, if_neg ha]
  | case4 a d cs ha hd ih =>
    intro h1 _
    rcases (List.chain'_cons.mp h1).1 with h | h
    · simp [ha] at h
    · simp [hd] at h
  | case5 a d cs ha hd ih =>
    intro h1 h2
    rw [collapseWs, if_pos ha, if_neg hd,
      ih (List.chain'_cons.mp h1).2 (fun c hc hsc => h2 c (List.mem_cons_of_mem a hc) hsc),
      h2 a (List.mem_cons_self a _) ha]
  | case6 a d cs ha ih =>
    intro h1 h2
    rw [collapseWs, if_neg ha,
      ih (List.chain'_cons.mp h1).2 (fun c hc hsc => h2 c (List.mem_cons_of_mem a hc) hsc)]

theorem head?_append_some {l t : List Char} {c : Char} (h : l.head? = some c) :
    (l ++ t).head? = some c := by
  cases l with
  | nil => simp at h
  | cons a u => simpa using h

theorem jsTrim_head_false (l : List Char) :
    ∀ c, (jsTrim l).head? = some c → jsIsSpace c = false := by
  intro c hc
  unfold jsTrim at hc
  obtain ⟨t, ht⟩ := exists_prefix_dropWhile (p := jsIsSpace) (l.dropWhile jsIsSpace).reverse
  have hl1 : l.dropWhile jsIsSpace =
      ((l.dropWhile jsIsSpace).reverse.dropWhile jsIsSpace).reverse ++ t.reverse := by
    have := congrArg List.reverse ht
    simpa [List.reverse_append] using this.symm
  refine dropWhile_head_false l c ?_
  rw [hl1]
  exact head?_append_some hc

theorem jsTrim_getLast_false (l : List Char) :
    ∀ c, (jsTrim l).getLast? = some c → jsIsSpace c = false := by
  intro c hc
  unfold jsTrim at hc
  rw [List.getLast?_reverse] at hc
  exact dropWhile_head_false _ c hc

theorem mem_jsTrim {c : Char} {l : List Char} (h : c ∈ jsTrim l) : c ∈ l := by
  unfold jsTrim at h
  rw [List.mem_reverse] at h
  have := mem_dropWhileP h
  rw [List.mem_reverse] at this
  exact mem_dropWhileP this

theorem jsTrim_eq_self (l : List Char)
    (h1 : ∀ c, l.head? = some c → jsIsSpace c = false)
    (h2 : ∀ c, l.getLast? = some c → jsIsSpace c = false) : jsTrim l = l := by
  unfold jsTrim
  rw [dropWhile_eq_self_of_head l h1, dropWhile_eq_self_of_head l.reverse
    (by intro c hc; rw [List.head?_reverse] at hc; exact h2 c hc), List.reverse_reverse]

theorem isKeptChar_toLower (c : Char) (h : isKeptChar c = true) :
    isKeptChar c.toLower = true := by
  by_cases hu : 65 ≤ c.toNat ∧ c.toNat ≤ 90
  · have h2 := toNat_toLower_of_upper c hu
    simp only [isKeptChar, isWordChar, jsIsSpace, Bool.or_eq_true, decide_eq_true_eq]
    omega
  · rw [toLower_eq_self c hu]
    exact h

theorem normalizeTextL_stable {x : List Char}
    (hkept : ∀ c ∈ x, isKeptChar c = true)
    (hlower : ∀ c ∈ x, c.toLower = c)
    (hhead : ∀ c, x.head? = some c → jsIsSpace c = false)
    (hlast : ∀ c, x.getLast? = some c → jsIsSpace c = false)
    (hchain : List.Chain' (fun a b => jsIsSpace a = false ∨ jsIsSpace b = false) x)
    (hsp : ∀ c ∈ x, jsIsSpace c = true → c = ' ') :
    normalizeTextL x = x := by
  unfold normalizeTextL
  have hm : x.map Char.toLower = x := by
    conv_rhs => rw [← List.map_id x]
    exact List.map_congr_left (fun c hc => hlower c hc)
  rw [hm, jsTrim_eq_self x hhead hlast, collapseWs_eq_self hchain hsp,
    List.filter_eq_self.mpr hkept]

theorem normalizeTextL_idem_of_kept {l : List Char}
    (hl : ∀ c ∈ l, isKeptChar c = true) :
    normalizeTextL (normalizeTextL l) = normalizeTextL l := by
  set z := l.map Char.toLower with hz
  have hzk : ∀ c ∈ z, isKeptChar c = true := by
    intro c hc
    obtain ⟨a, ha, rfl⟩ := List.mem_map.mp hc
    exact isKeptChar_toLower a (hl a ha)
  have hzl : ∀ c ∈ z, c.toLower = c := by
    intro c hc
    obtain ⟨a, _, rfl⟩ := List.mem_map.mp hc
    exact toLower_toLower a
  set y := jsTrim z with hy
  have hyk : ∀ c ∈ y, isKeptChar c = true := fun c hc => hzk c (mem_jsTrim hc)
  have hyl : ∀ c ∈ y, c.toLower = c := fun c hc => hzl c (mem_jsTrim hc)
  have hyh : ∀ c, y.head? = some c → jsIsSpace c = false := jsTrim_head_false z
  have hyg : ∀ c, y.getLast? = some c → jsIsSpace c = false := jsTrim_getLast_false z
  set x0 := collapseWs y with hx0
  have hx0k : ∀ c ∈ x0, isKeptChar c = true := by
    intro c hc
    rcases mem_collapseWs hc with rfl | ⟨hc2, _⟩
    · decide
    · exact hyk c hc2
  have hnl : normalizeTextL l = x0 := by
    unfold normalizeTextL
    rw [← hz, ← hy, ← hx0, List.filter_eq_self.mpr hx0k]
  rw [hnl]
  refine normalizeTextL_stable hx0k ?_ ?_ ?_ ?_ ?_
  · intro c hc
    rcases mem_collapseWs hc with rfl | ⟨hc2, _⟩
    · decide
    · exact hyl c hc2
  · intro c hc
    rw [head?_collapseWs hyh] at hc
    exact hyh c hc
  · exact getLast?_collapseWs hyg
  · exact chain'_collapseWs
  · intro c hc hcs
    rcases mem_collapseWs hc with rfl | ⟨_, hc3⟩
    · rfl
    · rw [hcs] at hc3
      exact absurd hc3 (by simp)

/-! ## Helper lemmas: the best-candidate scan -/

theorem scanBest_eq_none {α β γ : Type} [LinearOrder γ] {f : α → Option (β × γ)} :
    ∀ {L : List α} {acc : Option (β × γ)},
      scanBest f acc L = none ↔ acc = none ∧ ∀ x ∈ L, f x = none := by
  intro L
  induction L with
  | nil => intro acc; simp [scanBest]
  | cons x xs ih =>
    intro acc
    simp only [scanBest]
    cases hfx : f x with
    | none =>
      rw [ih]
      constructor
      · rintro ⟨h1, h2⟩
        exact ⟨h1, by
          intro y hy
          rcases List.mem_cons.mp hy with rfl | hy2
          · exact hfx
          · exact h2 y hy2⟩
      · rintro ⟨h1, h2⟩
        exact ⟨h1, fun y hy => h2 y (List.mem_cons_of_mem x hy)⟩
    | some bs =>
      obtain ⟨p0, t0⟩ := bs
      cases acc with
      | none =>
        rw [ih]
        simp only [reduceCtorEq, false_and, false_iff, not_and]
        intro _ h2
        exact absurd (h2 x (List.mem_cons_self x xs)) (by rw [hfx]; simp)
      | some b0 =>
        obtain ⟨p1, t1⟩ := b0
        rw [ih]
        constructor
        · rintro ⟨h1, _⟩
          by_cases hlt : t1 < t0
          · simp [if_pos hlt] at h1
          · simp [if_neg hlt] at h1
        · rintro ⟨h1, _⟩
          exact absurd h1 (by simp)

theorem scanBest_eq_some {α β γ : Type} [LinearOrder γ] {f : α → Option (β × γ)} :
    ∀ {L : List α} {acc : Option (β × γ)} {b : β} {s : γ},
      scanBest f acc L = some (b, s) →
        (acc = some (b, s) ∧ ∀ x ∈ L, ∀ p t, f x = some (p, t) → t ≤ s) ∨
        (∃ l₁ x l₂, L = l₁ ++ x :: l₂ ∧ f x = some (b, s) ∧
          (∀ p t, acc = some (p, t) → t < s) ∧
          (∀ y ∈ l₁, ∀ p t, f y = some (p, t) → t < s) ∧
          (∀ y ∈ l₂, ∀ p t, f y = some (p, t) → t ≤ s)) := by
  intro L
  induction L with
  | nil =>
    intro acc b s h
    simp only [scanBest] at h
    exact Or.inl ⟨h, by simp⟩
  | cons x xs ih =>
    intro acc b s h
    simp only [scanBest] at h
    cases hfx : f x with
    | none =>
      rw [hfx] at h
      rcases ih h with ⟨ha, hall⟩ | ⟨l₁, y, l₂, heq, hfy, hacc, h₁, h₂⟩
      · refine Or.inl ⟨ha, ?_⟩
        intro z hz p t hft
        rcases List.mem_cons.mp hz with rfl | hz2
        · rw [hfx] at hft; exact absurd hft (by simp)
        · exact hall z hz2 p t hft
      · refine Or.inr ⟨x :: l₁, y, l₂, by rw [heq, List.cons_append], hfy, hacc, ?_, h₂⟩
        intro z hz p t hft
        rcases List.mem_cons.mp hz with rfl | hz2
        · rw [hfx] at hft; exact absurd hft (by simp)
        · exact h₁ z hz2 p t hft
    | some bs =>
      obtain ⟨p0, t0⟩ := bs
      cases acc with
      | none =>
        rw [hfx] at h
        simp only at h
        rcases ih h with ⟨ha, hall⟩ | ⟨l₁, y, l₂, heq, hfy, hacc, h₁, h₂⟩
        · obtain ⟨rfl, rfl⟩ : p0 = b ∧ t0 = s := by
            simpa using ha
          refine Or.inr ⟨[], x, xs, rfl, hfx, by simp, by simp, hall⟩
        · refine Or.inr ⟨x :: l₁, y, l₂, by rw [heq, List.cons_append], hfy, by simp, ?_, h₂⟩
          intro z hz p t hft
          rcases List.mem_cons.mp hz with rfl | hz2
          · rw [hfx] at hft
            obtain ⟨rfl, rfl⟩ : p0 = p ∧ t0 = t := by simpa using hft
            exact hacc _ _ rfl
          · exact h₁ z hz2 p t hft
      | some b1 =>
        obtain ⟨p1, t1⟩ := b1
        rw [hfx] at h
        simp only at h
        by_cases hlt : t1 < t0
        · rw [if_pos hlt] at h
          rcases ih h with ⟨ha, hall⟩ | ⟨l₁, y, l₂, heq, hfy, hacc, h₁, h₂⟩
          · obtain ⟨rfl, rfl⟩ : p0 = b ∧ t0 = s := by simpa using ha
            refine Or.inr ⟨[], x, xs, rfl, hfx, ?_, by simp, hall⟩
            intro p t hpt
            obtain ⟨rfl, rfl⟩ : p1 = p ∧ t1 = t := by simpa using hpt
            exact hlt
          · refine Or.inr ⟨x :: l₁, y, l₂, by rw [heq, List.cons_append], hfy, ?_, ?_, h₂⟩
            · intro p t hpt
              obtain ⟨rfl, rfl⟩ : p1 = p ∧ t1 = t := by simpa using hpt
              exact lt_trans hlt (hacc p0 t0 rfl)
            · intro z hz p t hft
              rcases List.mem_cons.mp hz with rfl | hz2
              · rw [hfx] at hft
                obtain ⟨rfl, rfl⟩ : p0 = p ∧ t0 = t := by simpa using hft
                exact hacc _ _ rfl
              · exact h₁ z hz2 p t hft
        · rw [if_neg hlt] at h
          rcases ih h with ⟨ha, hall⟩ | ⟨l₁, y, l₂, heq, hfy, hacc, h₁, h₂⟩
          · obtain ⟨rfl, rfl⟩ : p1 = b ∧ t1 = s := by simpa using ha
            refine Or.inl ⟨rfl, ?_⟩
            intro z hz p t hft
            rcases List.mem_cons.mp hz with rfl | hz2
            · rw [hfx] at hft
              obtain ⟨rfl, rfl⟩ : p0 = p ∧ t0 = t := by simpa using hft
              exact le_of_not_lt hlt
            · exact hall z hz2 p t hft
          · refine Or.inr ⟨x :: l₁, y, l₂, by rw [heq, List.cons_append], hfy, hacc, ?_, h₂⟩
            intro z hz p t hft
            rcases List.mem_cons.mp hz with rfl | hz2
            · rw [hfx] at hft
              obtain ⟨rfl, rfl⟩ : p0 = p ∧ t0 = t := by simpa using hft
              exact lt_of_le_of_lt (le_of_not_lt hlt) (hacc p1 t1 rfl)
            · exact h₁ z hz2 p t hft

/-! ## Helper lemmas: Levenshtein, dedup -/

theorem levDistF_self : ∀ (l : List Char) (f : ℕ), levDistF f l l = 0 := by
  intro l
  induction l with
  | nil => intro f; cases f <;> rfl
  | cons c cs ih =>
    intro f
    cases f with
    | zero => rfl
    | succ g => simp [levDistF, ih g]

theorem levDist_self (l : List Char) : levDist l l = 0 :=
  levDistF_self l _

theorem mem_firstDedupGo {x : ℚ} :
    ∀ {l seen : List ℚ}, x ∈ firstDedupGo seen l → x ∈ l := by
  intro l
  induction l with
  | nil => intro seen h; simp [firstDedupGo] at h
  | cons y ys ih =>
    intro seen h
    rw [firstDedupGo] at h
    by_cases hy : y ∈ seen
    · rw [if_pos hy] at h
      exact List.mem_cons_of_mem y (ih h)
    · rw [if_neg hy] at h
      rcases List.mem_cons.mp h with rfl | h2
      · exact List.mem_cons_self x ys
      · exact List.mem_cons_of_mem y (ih h2)

theorem firstDedupGo_spec :
    ∀ (l seen : List ℚ),
      (∀ x ∈ firstDedupGo seen l, x ∉ seen) ∧ (firstDedupGo seen l).Nodup := by
  intro l
  induction l with
  | nil => intro seen; simp [firstDedupGo]
  | cons y ys ih =>
    intro seen
    rw [firstDedupGo]
    by_cases hy : y ∈ seen
    · rw [if_pos hy]
      exact ih seen
    · rw [if_neg hy]
      obtain ⟨ihmem, ihnd⟩ := ih (y :: seen)
      constructor
      · intro x hx
        rcases List.mem_cons.mp hx with rfl | h2
        · exact hy
        · intro hxs
          exact ihmem x h2 (List.mem_cons_of_mem y hxs)
      · refine List.nodup_cons.mpr ⟨?_, ihnd⟩
        intro hmem
        exact ihmem y hmem (List.mem_cons_self y seen)

/-! ## The claims -/

/-- Claim C4, counterexample: `normalizeText` is not idempotent as claimed:
stripping `!` from `"! a"` exposes a leading space that only a second pass
removes. -/
theorem c4_counterexample :
    ¬ (normalizeText "! a" = normalizeText (normalizeText "! a")) := by decide

/-- Claim C4, amended: `normalizeText` is idempotent on every string whose
characters all lie in the kept class (alphanumerics, underscore, whitespace,
`%`, `.`, `-`); on strings with stripped characters a second application can
differ (see the counterexample). -/
theorem c4_theorem (s : String) (h : ∀ c ∈ s.data, isKeptChar c = true) :
    normalizeText (normalizeText s) = normalizeText s := by
  show (⟨normalizeTextL (normalizeTextL s.data)⟩ : String) = ⟨normalizeTextL s.data⟩
  exact congrArg (fun l => (⟨l⟩ : String)) (normalizeTextL_idem_of_kept h)

/-- Claim C4 witness: the amended idempotence at a concrete kept-class
string. -/
theorem c4_witness :
    (∀ c ∈ ("A  b. -5%" : String).data, isKeptChar c = true) ∧
      normalizeText (normalizeText "A  b. -5%") = normalizeText "A  b. -5%" :=
  ⟨by decide, c4_theorem "A  b. -5%" (by decide)⟩

/-- Claim C9: the similarity score is reflexively maximal — for every string
`a` (the empty string included), `fuzzyMatch a a = 100` (the ratio scorer
modelled from the spec's formula). -/
theorem c9_theorem (a : String) : fuzzyMatch a a = 100 := by
  unfold fuzzyMatch ratioScore
  rw [levDist_self, Nat.cast_zero, zero_div, sub_zero, mul_one]
  norm_num

/-- Claim C10: every value `findAlcoholContent` returns lies in `[0, 100]`,
and the returned list has no duplicates. -/
theorem c10_theorem (text : String) :
    (∀ q ∈ findAlcoholContent text, 0 ≤ q ∧ q ≤ 100) ∧
      (findAlcoholContent text).Nodup := by
  constructor
  · intro q hq
    have hq2 := mem_firstDedupGo hq
    obtain ⟨s, _, hs⟩ := List.mem_filterMap.mp hq2
    cases hp : parseFloatQ s with
    | none => rw [hp] at hs; simp at hs
    | some p =>
      rw [hp] at hs
      simp only at hs
      by_cases hc : 0 ≤ p ∧ p ≤ 100
      · rw [if_pos hc] at hs
        obtain rfl : p = q := by simpa using hs
        exact hc
      · rw [if_neg hc] at hs
        simp at hs
  · exact (firstDedupGo_spec _ []).2

/-- Claim C1, code bug, evaluation at the failing input: in the vision path,
an extracted record matching the declared record on all four required fields
but without a government warning yields `success = false` — the warning flag
flips `overallSuccess`, contradicting the claim (and the OCR path's own
exclusion of the warning from `success`). -/
theorem c1_theorem :
    (verifyLabelWithVision sampleForm extractedNoWarning).fields.brandName.matched = true ∧
    (verifyLabelWithVision sampleForm extractedNoWarning).fields.productType.matched = true ∧
    (verifyLabelWithVision sampleForm extractedNoWarning).fields.alcoholContent.matched = true ∧
    (verifyLabelWithVision sampleForm extractedNoWarning).fields.netContents.matched = true ∧
    (verifyLabelWithVision sampleForm extractedNoWarning).fields.governmentWarning.matched
      = false ∧
    (verifyLabelWithVision sampleForm extractedNoWarning).success = false := by
  have ha : (verifyAlcoholField 45 (some 45)).matched = true := by
    norm_num [verifyAlcoholField]
  refine ⟨by decide, by decide, ha, by decide, by decide, ?_⟩
  show ((verifyBrandName "Old Tom" (some "Old Tom")).matched &&
    (verifyField "Product type" "Bourbon" (some "Bourbon")).matched &&
    (verifyAlcoholField 45 (some 45)).matched &&
    (verifyNetContentsField "750 ML" (some "750 ML")).matched &&
    (verifyWarningField false).matched) = false
  rw [ha]
  decide

/-- Claim C2, code bug, evaluation at the failing input: with all three
critical fields null in the raw extracted record — well past the ≥ 2 abort
threshold — `verifyLabelWithVision` raises nothing and returns an ordinary
`VerificationOutcome` with per-field failures. -/
theorem c2_theorem :
    2 ≤ absentCriticalCount extractedSparse ∧
    (verifyLabelWithVision sampleForm extractedSparse).fields.brandName.matched = false ∧
    (verifyLabelWithVision sampleForm extractedSparse).fields.brandName.found = none ∧
    (verifyLabelWithVision sampleForm extractedSparse).fields.productType.matched = false ∧
    (verifyLabelWithVision sampleForm extractedSparse).fields.alcoholContent.matched = false ∧
    (verifyLabelWithVision sampleForm extractedSparse).success = false := by
  exact ⟨by decide, by decide, by decide, by decide, by decide, by decide⟩

/-- Claim C3, counterexample: the claimed equivalence
"matched ↔ `normalizeText` equality" fails: `normalizeText` strips the
apostrophe, making `"Tom's"` and `"Toms"` equal after `normalizeText`, yet
the vision-path brand verifier (which only lowercases, trims and collapses
whitespace) reports a mismatch. -/
theorem c3_counterexample :
    normalizeText "Tom's" = normalizeText "Toms" ∧
      (verifyBrandName "Tom's" (some "Toms")).matched = false ∧
      ("Toms" : String) ≠ "" := by decide

/-- Claim C3, amended: the vision-path brand verifier matches iff the
extracted brand is present (non-null and non-empty) and the two values are
equal after lowercasing, trimming and whitespace collapsing (`normSpace`,
which unlike `normalizeText` strips nothing) — exact equality, no fuzzy
tolerance; on inequality the error names both values, and an absent brand
fails with the "not found" error.  (The OCR-path `verifyBrandName` instead
fuzzy-matches the brand against the OCR text at threshold 80.) -/
theorem c3_theorem :
    (∀ e f : String, f ≠ "" →
      ((verifyBrandName e (some f)).matched = true ↔ normSpace e = normSpace f)) ∧
    (∀ e f : String, f ≠ "" → normSpace e ≠ normSpace f →
      (verifyBrandName e (some f)).error = some (.brandMismatch e f)) ∧
    (∀ e : String, (verifyBrandName e none).matched = false ∧
      (verifyBrandName e none).error = some .brandNotFound) := by
  refine ⟨?_, ?_, ?_⟩
  · intro e f hf
    by_cases h : normSpace e = normSpace f
    · simp [verifyBrandName, hf, h]
    · simp [verifyBrandName, hf, h]
  · intro e f hf h
    simp [verifyBrandName, hf, h]
  · intro e
    simp [verifyBrandName]

/-- Claim C3 witness: the amended equivalence and the mismatch error at
concrete inputs. -/
theorem c3_witness :
    (("OLD TOM" : String) ≠ "" ∧
      ((verifyBrandName "Old Tom" (some "OLD TOM")).matched = true ↔
        normSpace "Old Tom" = normSpace "OLD TOM")) ∧
    (("Bob" : String) ≠ "" ∧ normSpace "Alice" ≠ normSpace "Bob" ∧
      (verifyBrandName "Alice" (some "Bob")).error =
        some (.brandMismatch "Alice" "Bob")) :=
  ⟨⟨by decide, c3_theorem.1 "Old Tom" "OLD TOM" (by decide)⟩,
   ⟨by decide, by decide, c3_theorem.2.1 "Alice" "Bob" (by decide) (by decide)⟩⟩

/-- Claim C5: the alcohol-content verifier matches iff `|declared − extracted|
≤ 0.5`; an absent extracted value fails with the "not found" error; and the
legacy text-scan integration (`verifyAlcoholContent`) selects the first
scanned candidate within tolerance. -/
theorem c5_theorem :
    (∀ d e : ℚ, ((verifyAlcoholField d (some e)).matched = true ↔ |d - e| ≤ 1 / 2)) ∧
    (∀ d : ℚ, (verifyAlcoholField d none).matched = false ∧
      (verifyAlcoholField d none).error = some (.alcoholNotFound d)) ∧
    (∀ (d : ℚ) (t : String), (∃ p ∈ findAlcoholContent t, |p - d| ≤ 1 / 2) →
      ∃ l₁ p l₂, findAlcoholContent t = l₁ ++ p :: l₂ ∧ |p - d| ≤ 1 / 2 ∧
        (∀ q ∈ l₁, ¬ |q - d| ≤ 1 / 2) ∧
        (verifyAlcoholContent d t).matched = true ∧
        (verifyAlcoholContent d t).found = some p) := by
  refine ⟨?_, ?_, ?_⟩
  · intro d e
    simp only [verifyAlcoholField]
    split
    · next h => simp only [true_iff]; exact h
    · next h =>
        simp only [Bool.false_eq_true, false_iff, not_le]
        exact not_le.mp h
  · intro d
    simp [verifyAlcoholField]
  · intro d t hex
    have hsome : ((findAlcoholContent t).find? (fun p => decide (|p - d| ≤ 1 / 2))).isSome := by
      rw [List.find?_isSome]
      obtain ⟨p, hp, hpd⟩ := hex
      exact ⟨p, hp, by simpa using hpd⟩
    obtain ⟨p, hfind⟩ := Option.isSome_iff_exists.mp hsome
    obtain ⟨hpd, as, bs, heq, hall⟩ := List.find?_eq_some.mp hfind
    refine ⟨as, p, bs, heq, by simpa using hpd, ?_, ?_, ?_⟩
    · intro q hq
      have := hall q hq
      simpa using this
    · simp only [verifyAlcoholContent]
      rw [hfind]
    · simp only [verifyAlcoholContent]
      rw [hfind]

/-- Claim C5 witness: the first-within-tolerance selection at a concrete scan
(`"40% 45% ABV"` scans to `[40, 45]`; declared 45 skips 40 and selects
45). -/
theorem c5_witness :
    (∃ p ∈ findAlcoholContent "40% 45% ABV", |p - (45 : ℚ)| ≤ 1 / 2) ∧
    (∃ l₁ p l₂, findAlcoholContent "40% 45% ABV" = l₁ ++ p :: l₂ ∧
      |p - (45 : ℚ)| ≤ 1 / 2 ∧ (∀ q ∈ l₁, ¬ |q - (45 : ℚ)| ≤ 1 / 2) ∧
      (verifyAlcoholContent 45 "40% 45% ABV").matched = true ∧
      (verifyAlcoholContent 45 "40% 45% ABV").found = some p) := by
  have hex : ∃ p ∈ findAlcoholContent "40% 45% ABV", |p - (45 : ℚ)| ≤ 1 / 2 := by
    have hfa : findAlcoholContent "40% 45% ABV" = [40, 45] := by decide
    refine ⟨45, by rw [hfa]; simp, by norm_num⟩
  exact ⟨hex, c5_theorem.2.2 45 "40% 45% ABV" hex⟩

/-- Claim C6: the net-contents verifier normalizes both values with the volume
normalizer and matches iff the normalized forms are exactly equal or their
similarity score is at least 80; an absent value fails with "not found";
`"750 mL"` vs `"750ML"` matches and `"750 mL"` vs `"1 L"` does not. -/
theorem c6_theorem :
    (∀ e f : String, f ≠ "" →
      ((verifyNetContentsField e (some f)).matched = true ↔
        (normalizeVolume e = normalizeVolume f ∨
          80 ≤ (1 - (levDist (normalizeVolume e).data (normalizeVolume f).data : ℚ) /
            (max ((normalizeVolume e).length : ℚ) ((normalizeVolume f).length : ℚ))) * 100))) ∧
    (∀ e : String, (verifyNetContentsField e none).matched = false ∧
      (verifyNetContentsField e none).error = some .netNotFound) ∧
    (verifyNetContentsField "750 mL" (some "750ML")).matched = true ∧
    (verifyNetContentsField "750 mL" (some "1 L")).matched = false := by
  refine ⟨?_, ?_, by decide, ?_⟩
  · intro e f hf
    simp only [verifyNetContentsField]
    rw [if_neg hf]
    by_cases heq : normalizeVolume e = normalizeVolume f
    · rw [if_pos heq]
      simp [heq]
    · rw [if_neg heq]
      by_cases hsim : (80 : ℚ) ≤ (1 - (levDist (normalizeVolume e).data
          (normalizeVolume f).data : ℚ) /
          (max ((normalizeVolume e).length : ℚ) ((normalizeVolume f).length : ℚ))) * 100
      · rw [if_pos hsim]
        simp [heq, hsim]
      · rw [if_neg hsim]
        simp [heq, hsim]
  · intro e
    simp [verifyNetContentsField]
  · have h1 : normalizeVolume "750 mL" = "750ml" := by decide
    have h2 : normalizeVolume "1 L" = "1l" := by decide
    have hne : normalizeVolume "750 mL" ≠ normalizeVolume "1 L" := by decide
    have hemp : ("1 L" : String) ≠ "" := by decide
    have hsim : ¬ ((80 : ℚ) ≤ (1 - (levDist (normalizeVolume "750 mL").data
        (normalizeVolume "1 L").data : ℚ) /
        (max ((normalizeVolume "750 mL").length : ℚ)
          ((normalizeVolume "1 L").length : ℚ))) * 100) := by
      rw [h1, h2]
      have hlev : levDist ("750ml" : String).data ("1l" : String).data = 4 := by decide
      have hl1 : ("750ml" : String).length = 5 := by decide
      have hl2 : ("1l" : String).length = 2 := by decide
      rw [hlev, hl1, hl2]
      rw [max_eq_left (by norm_num : (((2 : ℕ) : ℚ)) ≤ ((5 : ℕ) : ℚ))]
      push_cast
      norm_num
    simp only [verifyNetContentsField]
    rw [if_neg hemp, if_neg hne, if_neg hsim]

/-- Claim C6 witness: the normalized-equality/similarity characterization at a
concrete matching pair. -/
theorem c6_witness :
    ("750ML" : String) ≠ "" ∧
      ((verifyNetContentsField "750 mL" (some "750ML")).matched = true ↔
        (normalizeVolume "750 mL" = normalizeVolume "750ML" ∨
          80 ≤ (1 - (levDist (normalizeVolume "750 mL").data
            (normalizeVolume "750ML").data : ℚ) /
            (max ((normalizeVolume "750 mL").length : ℚ)
              ((normalizeVolume "750ML").length : ℚ))) * 100)) :=
  ⟨by decide, c6_theorem.1 "750 mL" "750ML" (by decide)⟩

/-! ## Helper lemmas: the classifier -/

theorem keywordConfidence_le_95 (kw hay : List Char) : keywordConfidence kw hay ≤ 95 := by
  cases h : firstIdxGo kw hay 0 with
  | none => simp [keywordConfidence, h]
  | some pos =>
    simp only [keywordConfidence, h]
    exact Nat.min_le_right _ _

theorem classify_eq (t : String) (h : ¬ (classifierNorm t).isEmpty = true) :
    classifyProductType t =
      match scanBest (fun ck : TTBCategory × String =>
          if includesSub ck.2.data (classifierNorm t)
          then some ((ck.1, ck.2), keywordConfidence ck.2.data (classifierNorm t))
          else none) none keywordPairs with
      | some bs => ⟨some bs.1.1, bs.2, some bs.1.2⟩
      | none => ⟨none, 0, none⟩ := by
  simp only [classifyProductType, if_neg h]

theorem classifyHit {t : String} {x b : TTBCategory × String} {conf : ℕ}
    (hfx : (if includesSub x.2.data (classifierNorm t)
        then some ((x.1, x.2), keywordConfidence x.2.data (classifierNorm t))
        else none) = some (b, conf)) :
    includesSub x.2.data (classifierNorm t) = true ∧ b = (x.1, x.2) ∧
      conf = keywordConfidence x.2.data (classifierNorm t) := by
  by_cases h : includesSub x.2.data (classifierNorm t) = true
  · rw [if_pos h] at hfx
    obtain ⟨h1, h2⟩ : (x.1, x.2) = b ∧ keywordConfidence x.2.data (classifierNorm t) = conf := by
      simpa [Prod.ext_iff] using hfx
    exact ⟨h, h1.symm, h2.symm⟩
  · rw [if_neg h] at hfx
    simp at hfx

set_option maxRecDepth 16384 in
/-- Claim C7: `classifyProductType` returns `{null, 0}` exactly when no
keyword of any category occurs in the normalized text (in particular for the
empty string); otherwise it returns a maximal-confidence keyword hit, with
confidence never above 95; and the bourbon example classifies as Distilled
Spirits with confidence at least 60. -/
theorem c7_theorem (t : String) :
    (classifyProductType t = ⟨none, 0, none⟩ ↔
      ∀ p ∈ keywordPairs, includesSub p.2.data (classifierNorm t) = false) ∧
    ((∃ p ∈ keywordPairs, includesSub p.2.data (classifierNorm t) = true) →
      ∃ p ∈ keywordPairs, includesSub p.2.data (classifierNorm t) = true ∧
        classifyProductType t =
          ⟨some p.1, keywordConfidence p.2.data (classifierNorm t), some p.2⟩ ∧
        keywordConfidence p.2.data (classifierNorm t) ≤ 95 ∧
        (∀ q ∈ keywordPairs, includesSub q.2.data (classifierNorm t) = true →
          keywordConfidence q.2.data (classifierNorm t) ≤
            keywordConfidence p.2.data (classifierNorm t))) ∧
    (classifyProductType "Kentucky Straight Bourbon Whiskey").category =
      some TTBCategory.distilledSpirits ∧
    60 ≤ (classifyProductType "Kentucky Straight Bourbon Whiskey").confidence ∧
    (classifyProductType "").category = none := by
  have hkwnil : ∀ p ∈ keywordPairs, includesSub p.2.data ([] : List Char) = false := by decide
  refine ⟨?_, ?_, by decide, by decide, by decide⟩
  · by_cases hemp : (classifierNorm t).isEmpty
    · have h0 : classifierNorm t = [] := by simpa [List.isEmpty_iff] using hemp
      constructor
      · intro _ p hp
        rw [h0]
        exact hkwnil p hp
      · intro _
        simp [classifyProductType, hemp]
    · rw [classify_eq t hemp]
      cases hscan : scanBest (fun ck : TTBCategory × String =>
          if includesSub ck.2.data (classifierNorm t)
          then some ((ck.1, ck.2), keywordConfidence ck.2.data (classifierNorm t))
          else none) none keywordPairs with
      | none =>
        obtain ⟨_, hall⟩ := scanBest_eq_none.mp hscan
        apply iff_of_true rfl
        intro p hp
        have hFp := hall p hp
        by_contra hneg
        have hpos : includesSub p.2.data (classifierNorm t) = true := by
          revert hneg
          cases includesSub p.2.data (classifierNorm t) <;> simp
        rw [if_pos hpos] at hFp
        exact absurd hFp (by simp)
      | some bs =>
        apply iff_of_false (by simp)
        rcases scanBest_eq_some hscan with ⟨habs, _⟩ | ⟨l₁, x, l₂, heq, hfx, _, _, _⟩
        · exact absurd habs (by simp)
        · intro hall
          obtain ⟨hix, _, _⟩ := classifyHit hfx
          have hxmem : x ∈ keywordPairs := by
            rw [heq]
            exact List.mem_append_right _ (List.mem_cons_self x l₂)
          rw [hall x hxmem] at hix
          exact Bool.false_ne_true hix
  · intro hex
    have hemp : ¬ (classifierNorm t).isEmpty = true := by
      intro h
      have h0 : classifierNorm t = [] := by simpa [List.isEmpty_iff] using h
      obtain ⟨p, hp, hpi⟩ := hex
      rw [h0, hkwnil p hp] at hpi
      exact Bool.false_ne_true hpi
    rw [classify_eq t hemp]
    cases hscan : scanBest (fun ck : TTBCategory × String =>
        if includesSub ck.2.data (classifierNorm t)
        then some ((ck.1, ck.2), keywordConfidence ck.2.data (classifierNorm t))
        else none) none keywordPairs with
    | none =>
      exfalso
      obtain ⟨_, hall⟩ := scanBest_eq_none.mp hscan
      obtain ⟨p, hp, hpi⟩ := hex
      have hFp := hall p hp
      rw [if_pos hpi] at hFp
      exact absurd hFp (by simp)
    | some bs =>
      obtain ⟨b, conf⟩ := bs
      rcases scanBest_eq_some hscan with ⟨habs, _⟩ | ⟨l₁, x, l₂, heq, hfx, _, h₁, h₂⟩
      · exact absurd habs (by simp)
      · obtain ⟨hix, hb, hconf⟩ := classifyHit hfx
        have hxmem : x ∈ keywordPairs := by
          rw [heq]
          exact List.mem_append_right _ (List.mem_cons_self x l₂)
        subst hb
        subst hconf
        refine ⟨x, hxmem, hix, rfl, keywordConfidence_le_95 _ _, ?_⟩
        intro q hq hiq
        have hFq : (if includesSub q.2.data (classifierNorm t)
            then some ((q.1, q.2), keywordConfidence q.2.data (classifierNorm t))
            else none) = some ((q.1, q.2), keywordConfidence q.2.data (classifierNorm t)) := by
          rw [if_pos hiq]
        rw [heq] at hq
        rcases List.mem_append.mp hq with hq1 | hq2
        · exact le_of_lt (h₁ q hq1 _ _ hFq)
        · rcases List.mem_cons.mp hq2 with rfl | hq3
          · exact le_refl _
          · exact h₂ q hq3 _ _ hFq

set_option maxRecDepth 16384 in
/-- Claim C7 witness: the maximal-hit characterization applied at the bourbon
example. -/
theorem c7_witness :
    (∃ p ∈ keywordPairs,
      includesSub p.2.data (classifierNorm "Kentucky Straight Bourbon Whiskey") = true) ∧
    (∃ p ∈ keywordPairs,
      includesSub p.2.data (classifierNorm "Kentucky Straight Bourbon Whiskey") = true ∧
      classifyProductType "Kentucky Straight Bourbon Whiskey" =
        ⟨some p.1,
          keywordConfidence p.2.data (classifierNorm "Kentucky Straight Bourbon Whiskey"),
          some p.2⟩ ∧
      keywordConfidence p.2.data (classifierNorm "Kentucky Straight Bourbon Whiskey") ≤ 95 ∧
      (∀ q ∈ keywordPairs,
        includesSub q.2.data (classifierNorm "Kentucky Straight Bourbon Whiskey") = true →
        keywordConfidence q.2.data (classifierNorm "Kentucky Straight Bourbon Whiskey") ≤
          keywordConfidence p.2.data (classifierNorm "Kentucky Straight Bourbon Whiskey"))) :=
  ⟨by decide, ( c7_theorem "Kentucky Straight Bourbon Whiskey" ).2.1 (by decide)⟩

/-- Claim C8: `findBestMatch` returns `none` exactly when no window of 1–10
whitespace-delimited words scores at or above the threshold; otherwise it
returns the first-encountered window (window size ascending, start index
ascending — the order of `textWindows`) achieving the maximal qualifying
score, paired with that score. -/
theorem c8_theorem (searchTerm ocrText : String) (threshold : ℚ) :
    (findBestMatch searchTerm ocrText threshold = none ↔
      ∀ w ∈ textWindows ocrText, windowScore searchTerm w < threshold) ∧
    (∀ b s, findBestMatch searchTerm ocrText threshold = some (b, s) →
      ∃ l₁ w l₂, textWindows ocrText = l₁ ++ w :: l₂ ∧ b = ⟨w⟩ ∧
        s = windowScore searchTerm w ∧ threshold ≤ s ∧
        (∀ v ∈ l₁, windowScore searchTerm v < s) ∧
        (∀ v ∈ l₂, windowScore searchTerm v ≤ s)) := by
  constructor
  · simp only [findBestMatch]
    rw [scanBest_eq_none]
    constructor
    · rintro ⟨_, hall⟩ w hw
      have hFw := hall w hw
      by_contra hge
      rw [if_pos (not_lt.mp hge)] at hFw
      exact absurd hFw (by simp)
    · intro hall
      refine ⟨rfl, ?_⟩
      intro w hw
      rw [if_neg (not_le.mpr (hall w hw))]
  · intro b s h
    simp only [findBestMatch] at h
    rcases scanBest_eq_some h with ⟨habs, _⟩ | ⟨l₁, x, l₂, heq, hfx, _, h₁, h₂⟩
    · exact absurd habs (by simp)
    · by_cases hq : threshold ≤ windowScore searchTerm x
      · rw [if_pos hq] at hfx
        obtain ⟨hb, hs⟩ : (⟨x⟩ : String) = b ∧ windowScore searchTerm x = s := by
          simpa [Prod.ext_iff] using hfx
        subst hb
        subst hs
        refine ⟨l₁, x, l₂, heq, rfl, rfl, hq, ?_, ?_⟩
        · intro v hv
          by_cases hvq : threshold ≤ windowScore searchTerm v
          · exact h₁ v hv _ _ (by rw [if_pos hvq])
          · exact lt_of_lt_of_le (not_le.mp hvq) hq
        · intro v hv
          by_cases hvq : threshold ≤ windowScore searchTerm v
          · exact h₂ v hv _ _ (by rw [if_pos hvq])
          · exact le_trans (le_of_lt (not_le.mp hvq)) hq
      · rw [if_neg hq] at hfx
        exact absurd hfx (by simp)

/-- Claim C8 witness: the characterization applied where the single window
`"ab"` matches the needle exactly. -/
theorem c8_witness :
    findBestMatch "ab" "ab" 80 = some ("ab", 100) ∧
    (∃ l₁ w l₂, textWindows "ab" = l₁ ++ w :: l₂ ∧ ("ab" : String) = ⟨w⟩ ∧
      (100 : ℚ) = windowScore "ab" w ∧ (80 : ℚ) ≤ 100 ∧
      (∀ v ∈ l₁, windowScore "ab" v < 100) ∧
      (∀ v ∈ l₂, windowScore "ab" v ≤ 100)) := by
  have hsc : windowScore "ab" (['a', 'b'] : List Char) = 100 := by
    unfold windowScore fuzzyMatch ratioScore
    have h1 : normalizeText (normalizeText "ab") = "ab" := by decide
    have h2 : normalizeText (⟨['a', 'b']⟩ : String) = "ab" := by decide
    rw [h1, h2, levDist_self, Nat.cast_zero, zero_div, sub_zero, mul_one]
    norm_num
  have hw : textWindows "ab" = [['a', 'b']] := by decide
  have hfb : findBestMatch "ab" "ab" 80 = some ("ab", 100) := by
    rw [show findBestMatch "ab" "ab" 80 =
      scanBest (fun w => if (80 : ℚ) ≤ windowScore "ab" w
        then some ((⟨w⟩ : String), windowScore "ab" w) else none) none (textWindows "ab")
      from rfl, hw]
    simp only [scanBest, hsc]
    rw [if_pos (by norm_num : (80 : ℚ) ≤ 100)]
  exact ⟨hfb, ( c8_theorem "ab" "ab" 80 ).2 "ab" 100 hfb⟩
